import Mathlib

/-!
Verification of the console-service command engine of this repository
(`src/services/windows_console.py`, `src/services/base.py`) against its
natural-language specification.

The embedding models the host filesystem as a finite association list from
absolute, normalized POSIX paths (component lists) to nodes.  A node is a
regular file (carrying its raw byte content) or a directory; each node also
carries an optional stat record — `none` models a race where the entry's
metadata can no longer be retrieved (`entry.stat()` raising `OSError`).
The model is symlink-free, so `Path.resolve()` is pure lexical
normalization (collapsing `.` and `..`), which coincides with its behavior
on a symlink-free tree.  Machine-level concerns (logging side effects,
timestamps rendered in local time) are outside the model: logging is not
represented, and `datetime.fromtimestamp(...).strftime(...)` is abstracted
as an explicit formatting argument because its output depends on the host
timezone.
-/

/-- A stat record: raw `st_mode`, byte size and modification time, as
read by `entry.stat()` in `format_detailed` (`S_IMODE` keeps the low
twelve bits of `st_mode`). -/
structure StatInfo where
  mode : Nat
  size : Nat
  mtime : Nat
deriving DecidableEq, Repr

/-- A filesystem node: a regular file with raw byte content, or a
directory. -/
inductive NodeKind where
  | file (content : List Nat)
  | dir
deriving DecidableEq, Repr

/-- A node together with its (possibly unavailable) stat metadata. -/
structure Node where
  kind : NodeKind
  meta : Option StatInfo
deriving DecidableEq, Repr

/-- An absolute, normalized path, as its list of components.  The
filesystem root is `[]`. -/
abbrev FsPath := List String

/-- The filesystem: a finite map (association list) from absolute
normalized paths to nodes.  The list order of entries models the
unspecified `iterdir` enumeration order. -/
abbrev Fs := List (FsPath × Node)

/-- Error kinds signaled by the service, mirroring the Python exception
taxonomy of the code (`FileNotFoundError`, `NotADirectoryError`,
`IsADirectoryError`, `FileExistsError` / `shutil.Error`,
`PermissionError`, `UnicodeDecodeError`, `ValueError`). -/
inductive Err where
  | notFound
  | notADirectory
  | isADirectory
  | alreadyExists
  | permissionDenied
  | decodeError
  | valueError
deriving DecidableEq, Repr

/-- Enumeration `FileReadMode` from `src/enums.py`. -/
inductive FileReadMode where
  | string
  | bytes
deriving DecidableEq, Repr

/-- Enumeration `FileDisplayMode` from `src/enums.py`. -/
inductive FileDisplayMode where
  | simple
  | detailed
deriving DecidableEq, Repr

/-- Split a character list at every `/`, keeping empty segments
(structural-recursive counterpart of `String.splitOn "/"`). -/
def splitOnSlash : List Char → List (List Char)
  | [] => [[]]
  | c :: rest =>
    if c = '/' then [] :: splitOnSlash rest
    else
      match splitOnSlash rest with
      | h :: t => (c :: h) :: t
      | [] => [[c]]

/-- Parse a raw POSIX path string into its components, the way
`pathlib.PurePosixPath` does: split on `/`, dropping empty components and
bare `.` components, keeping `..`. -/
def parseComps (s : String) : List String :=
  ((splitOnSlash s.data).map String.mk).filter (fun c => !(c == "" || c == "."))

/-- Whether the raw path string is absolute (`Path.is_absolute()` on
POSIX): it starts with `/`. -/
def isAbsolute (s : String) : Bool :=
  match s.data with
  | c :: _ => c = '/'
  | [] => false

/-- The characters Python `str.strip()` removes: code points with the
Unicode white-space property (`Py_UNICODE_ISSPACE`). -/
def pyIsSpace (c : Char) : Bool :=
  let n := c.toNat
  (0x09 ≤ n && n ≤ 0x0D) || (0x1C ≤ n && n ≤ 0x20) || n == 0x85 || n == 0xA0
    || n == 0x1680 || (0x2000 ≤ n && n ≤ 0x200A) || n == 0x2028 || n == 0x2029
    || n == 0x202F || n == 0x205F || n == 0x3000

/-- Remove leading whitespace characters (Python whitespace set). -/
def dropLeadingWs : List Char → List Char
  | [] => []
  | c :: cs => if pyIsSpace c then dropLeadingWs cs else c :: cs

/-- Python `str.strip()`: remove leading and trailing whitespace
(structural-recursive counterpart of `String.trim`). -/
def stripWs (s : String) : String :=
  String.mk ((dropLeadingWs (dropLeadingWs s.data).reverse).reverse)

/-- Collapse `..` components left to right; `..` at the root stays at the
root.  This is what `Path.resolve()` computes on a symlink-free tree. -/
def normalizeComps (comps : List String) : FsPath :=
  comps.foldl (fun acc c => if c = ".." then acc.dropLast else acc ++ [c]) []

/-- Resolve a raw path string against the working directory `cwd`:
absolute paths stand alone, relative ones are joined to `cwd`, then the
result is normalized (`Path.resolve()` relative to the process working
directory). -/
def resolveP (cwd : FsPath) (s : String) : FsPath :=
  if isAbsolute s then normalizeComps (parseComps s)
  else normalizeComps (cwd ++ parseComps s)

/-- The final path component, as `pathlib`'s `.name` (empty for the
root). -/
def baseName (s : String) : String :=
  (parseComps s).getLast?.getD ""

/-- The parent path (`Path.parent` in resolved component form). -/
def parentP (p : FsPath) : FsPath :=
  p.dropLast

/-- Render an absolute component path back to a POSIX string, as
`str(path)` on a resolved `pathlib.Path`. -/
def pathToString (p : FsPath) : String :=
  "/" ++ String.intercalate "/" p

/-- Look the path up in the filesystem. -/
def lookupFs (fs : Fs) (p : FsPath) : Option Node :=
  (fs.find? (fun e => e.1 == p)).map Prod.snd

/-- `Path.exists()` in the model. -/
def existsB (fs : Fs) (p : FsPath) : Bool :=
  (lookupFs fs p).isSome

/-- `Path.is_dir()` in the model. -/
def isDirB (fs : Fs) (p : FsPath) : Bool :=
  match lookupFs fs p with
  | some n => n.kind == NodeKind.dir
  | none => false

/-- Whether a node is a regular file (`Path.is_file()` on the entry). -/
def Node.isFileNode (n : Node) : Bool :=
  match n.kind with
  | NodeKind.file _ => true
  | NodeKind.dir => false

/-- Byte content of the file at `p` (empty when absent or a directory;
all uses are guarded by `existsB`/`isDirB` checks). -/
def contentOf (fs : Fs) (p : FsPath) : List Nat :=
  match lookupFs fs p with
  | some ⟨NodeKind.file c, _⟩ => c
  | _ => []

/-- The direct children of directory `p`, in filesystem enumeration order
(models `path.iterdir()`): each child's name with its node. -/
def childrenOf (fs : Fs) (p : FsPath) : List (String × Node) :=
  fs.filterMap (fun e =>
    if e.1.length = p.length + 1 ∧ p.isPrefixOf e.1 then
      e.1.getLast?.map (fun nm => (nm, e.2))
    else none)

/-- Names of the direct children of `p`, in enumeration order. -/
def childNames (fs : Fs) (p : FsPath) : List String :=
  (childrenOf fs p).map Prod.fst

/-- Replace (or create) the entry at path `p`. -/
def setEntry (fs : Fs) (p : FsPath) (n : Node) : Fs :=
  fs.filter (fun e => !(e.1 == p)) ++ [(p, n)]

/-- Remove the single entry at `p` (`path.unlink()`). -/
def removeAt (fs : Fs) (p : FsPath) : Fs :=
  fs.filter (fun e => !(e.1 == p))

/-- Remove the whole subtree rooted at `p` (`shutil.rmtree`). -/
def removeSubtree (fs : Fs) (p : FsPath) : Fs :=
  fs.filter (fun e => !(p.isPrefixOf e.1))

/-- All entries of the subtree rooted at `s`, including `s` itself. -/
def subtreeEntries (fs : Fs) (s : FsPath) : List (FsPath × Node) :=
  fs.filter (fun e => s.isPrefixOf e.1)

/-- `shutil.copytree(s, d)` without `dirs_exist_ok`: fails with
`FileExistsError` when the destination exists, otherwise replicates the
whole source subtree (contents and metadata, via `copy2`) under `d`. -/
def copytree (fs : Fs) (s d : FsPath) : Except Err Fs :=
  if existsB fs d then Except.error Err.alreadyExists
  else Except.ok
    (fs ++ (subtreeEntries fs s).map (fun e => (d ++ e.1.drop s.length, e.2)))

/-- `shutil.copy2(s, d)` on a regular source file: when `d` is an
existing directory, the real target becomes `d / basename(s)`; writing
to a target that is (still) a directory fails with `IsADirectoryError`
when the file is opened; otherwise the target file is created or
overwritten with the source's content and metadata. -/
def copy2 (fs : Fs) (s d : FsPath) : Except Err Fs :=
  let realDst := if isDirB fs d then d ++ [(s.getLast?).getD ""] else d
  if isDirB fs realDst then Except.error Err.isADirectory
  else match lookupFs fs s with
    | some n => Except.ok (setEntry fs realDst n)
    | none => Except.error Err.notFound

/-- The chain of non-empty prefixes of `p` (every ancestor, `p` itself
last). -/
def prefixChain (p : FsPath) : List FsPath :=
  (List.range p.length).map (fun i => p.take (i + 1))

/-- A freshly created directory node. -/
def newDirNode : Node :=
  { kind := NodeKind.dir, meta := some { mode := 0o755, size := 0, mtime := 0 } }

/-- `p.mkdir(parents=True, exist_ok=True)`: create every missing prefix
of `p` as a directory; fails (`FileExistsError`/`NotADirectoryError`)
when some existing prefix is not a directory. -/
def mkdirParents (fs : Fs) (p : FsPath) : Except Err Fs :=
  if (prefixChain p).all (fun q => !existsB fs q || isDirB fs q) then
    Except.ok ((prefixChain p).foldl
      (fun acc q => if existsB acc q then acc else acc ++ [(q, newDirNode)]) fs)
  else Except.error Err.alreadyExists

/-- Remap the subtree rooted at `s` to root `d`, leaving everything else
in place (the effect of a successful `os.rename`). -/
def moveSubtree (fs : Fs) (s d : FsPath) : Fs :=
  fs.map (fun e => if s.isPrefixOf e.1 then (d ++ e.1.drop s.length, e.2) else e)

/-- `os.rename(s, d)` with `shutil.move`'s fallback: renaming onto an
existing directory succeeds only when the source is a directory and the
target is empty (otherwise the copytree fallback hits an existing
target, `FileExistsError`); renaming a directory onto an existing file
also ends in the copytree fallback's `FileExistsError`; renaming a file
onto an existing file silently replaces it. -/
def renameFs (fs : Fs) (s d : FsPath) : Except Err Fs :=
  if existsB fs d then
    if isDirB fs d then
      if isDirB fs s ∧ childNames fs d = [] then
        Except.ok (moveSubtree (removeAt fs d) s d)
      else Except.error Err.alreadyExists
    else if isDirB fs s then Except.error Err.alreadyExists
    else Except.ok (moveSubtree (removeAt fs d) s d)
  else Except.ok (moveSubtree fs s d)

/-- `shutil.move(s, d)` on one filesystem: when `d` is an existing
directory the real target becomes `d / basename(s)` and an existing real
target is refused (`shutil.Error`); otherwise the move is a rename. -/
def shutilMove (fs : Fs) (s d : FsPath) : Except Err Fs :=
  if isDirB fs d then
    let realDst := d ++ [(s.getLast?).getD ""]
    if existsB fs realDst then Except.error Err.alreadyExists
    else renameFs fs s realDst
  else renameFs fs s d

/-- Unicode code points of `s.lower()` applied to the entry name (the
Python sort key component `x.name.lower()`; ASCII lowering). -/
def lowerCodes (s : String) : List Nat :=
  s.data.map (fun c => c.toLower.toNat)

/-- The `ls` sort key `(x.is_file(), x.name.lower())`, flattened into one
numeric list compared lexicographically: Python orders `False < True` and
strings by code point. -/
def entryKey (e : String × Node) : List Nat :=
  (if e.2.isFileNode then 1 else 0) :: lowerCodes e.1

/-- Lexicographic comparison of numeric lists (a shorter list precedes
its extensions), matching Python tuple/string comparison. -/
def natListLe : List Nat → List Nat → Bool
  | [], _ => true
  | _ :: _, [] => false
  | a :: as, b :: bs => a < b || (a == b && natListLe as bs)

/-- Ordering relation used by the `entries.sort(...)` call in `ls`. -/
def keyLe (a b : String × Node) : Prop :=
  natListLe (entryKey a) (entryKey b) = true

instance : DecidableRel keyLe := fun a b =>
  inferInstanceAs (Decidable (natListLe (entryKey a) (entryKey b) = true))

/-- Python `oct(n)[2:]`: the octal digits of `n` (just `0` for zero). -/
def octalDigits (n : Nat) : String :=
  String.mk (Nat.toDigits 8 n)

/-- Python `f"{s:>10}"`-style right justification to width `w`. -/
def rjust (w : Nat) (s : String) : String :=
  String.mk (List.replicate (w - s.length) ' ') ++ s

/-- The `format_detailed` helper of `WindowsConsoleService`: renders one
detailed listing line from an entry's name, kind and stat record; when the
stat call fails (`meta = none`, the `except OSError` branch) it logs a
warning and returns the question-mark placeholder line.  `fmtTime`
abstracts `datetime.fromtimestamp(mtime).strftime("%Y-%m-%d %H:%M:%S")`,
whose output depends on the host timezone. -/
def formatDetailed (fmtTime : Nat → String) (name : String) (isDirEntry : Bool)
    (meta : Option StatInfo) : String :=
  match meta with
  | some st =>
    let permissions := octalDigits (st.mode % 4096)
    let mtimePretty := fmtTime st.mtime
    let entryType := if isDirEntry then "d" else "-"
    entryType ++ permissions ++ " " ++ rjust 10 (toString st.size) ++ " "
      ++ mtimePretty ++ " " ++ name ++ "\n"
  | none => "? ? ? ? " ++ name ++ "\n"

/-- The `ls` method of `WindowsConsoleService`: validates that the path
exists and is a directory, lists the direct children, sorts them by
`(x.is_file(), x.name.lower())` and renders either plain names or
detailed lines. -/
def ls (fmtTime : Nat → String) (fs : Fs) (cwd : FsPath) (pathArg : String)
    (displayMode : FileDisplayMode) : Except Err (List String) :=
  let p := resolveP cwd pathArg
  if !existsB fs p then Except.error Err.notFound
  else if !isDirB fs p then Except.error Err.notADirectory
  else
    let entries := childrenOf fs p
    let sorted := List.insertionSort keyLe entries
    match displayMode with
    | FileDisplayMode.simple =>
      Except.ok (sorted.map (fun e => e.1 ++ "\n"))
    | FileDisplayMode.detailed =>
      Except.ok (sorted.map (fun e =>
        formatDetailed fmtTime e.1 (e.2.kind == NodeKind.dir) e.2.meta))

/-- Standard UTF-8 encoding of one Unicode code point (1 to 4 bytes). -/
def utf8EncodeChar (c : Nat) : List Nat :=
  if c < 0x80 then [c]
  else if c < 0x800 then [0xC0 + c / 64, 0x80 + c % 64]
  else if c < 0x10000 then [0xE0 + c / 4096, 0x80 + c / 64 % 64, 0x80 + c % 64]
  else [0xF0 + c / 262144, 0x80 + c / 4096 % 64, 0x80 + c / 64 % 64, 0x80 + c % 64]

/-- UTF-8 encoding of a code point sequence (what writing known text to a
file stores on disk). -/
def utf8Encode (s : List Nat) : List Nat :=
  (s.map utf8EncodeChar).flatten

/-- One step of strict UTF-8 decoding: the first code point and the
remaining bytes, or `none` on a continuation error, overlong form,
surrogate or out-of-range value. -/
def decodeOne : List Nat → Option (Nat × List Nat)
  | [] => none
  | b0 :: bs =>
    if b0 < 0x80 then some (b0, bs)
    else if b0 < 0xC2 then none
    else if b0 < 0xE0 then
      match bs with
      | b1 :: bs1 =>
        if 0x80 ≤ b1 ∧ b1 < 0xC0 then
          some ((b0 - 0xC0) * 64 + (b1 - 0x80), bs1)
        else none
      | [] => none
    else if b0 < 0xF0 then
      match bs with
      | b1 :: b2 :: bs2 =>
        if (0x80 ≤ b1 ∧ b1 < 0xC0) ∧ (0x80 ≤ b2 ∧ b2 < 0xC0)
            ∧ ¬(b0 = 0xE0 ∧ b1 < 0xA0) ∧ ¬(b0 = 0xED ∧ 0xA0 ≤ b1) then
          some ((b0 - 0xE0) * 4096 + (b1 - 0x80) * 64 + (b2 - 0x80), bs2)
        else none
      | _ => none
    else if b0 < 0xF5 then
      match bs with
      | b1 :: b2 :: b3 :: bs3 =>
        if (0x80 ≤ b1 ∧ b1 < 0xC0) ∧ (0x80 ≤ b2 ∧ b2 < 0xC0) ∧ (0x80 ≤ b3 ∧ b3 < 0xC0)
            ∧ ¬(b0 = 0xF0 ∧ b1 < 0x90) ∧ ¬(b0 = 0xF4 ∧ 0x90 ≤ b1) then
          some ((b0 - 0xF0) * 262144 + (b1 - 0x80) * 4096 + (b2 - 0x80) * 64 + (b3 - 0x80), bs3)
        else none
      | _ => none
    else none

/-- Fueled decoding loop; `decodeOne` consumes at least one byte per
step, so fuel equal to the byte count always suffices. -/
def utf8DecodeAux : Nat → List Nat → Option (List Nat)
  | _, [] => some []
  | 0, _ :: _ => none
  | fuel + 1, b0 :: bs =>
    match decodeOne (b0 :: bs) with
    | some (c, rest) => (utf8DecodeAux fuel rest).map (fun r => c :: r)
    | none => none

/-- Strict UTF-8 decoding, as Python `bytes.decode("utf-8")`: decodes
code point by code point, returning `none` where Python raises
`UnicodeDecodeError`. -/
def utf8Decode (l : List Nat) : Option (List Nat) :=
  utf8DecodeAux l.length l

/-- Universal-newline translation performed by `open(..., "r")` with
`newline=None` (hence by `Path.read_text`): every `\r\n` pair and every
lone `\r` in the decoded text becomes `\n`. -/
def translateNewlines : List Nat → List Nat
  | [] => []
  | c :: rest =>
    if c = 13 then
      match rest with
      | [] => [10]
      | d :: rest2 =>
        if d = 10 then 10 :: translateNewlines rest2
        else 10 :: translateNewlines (d :: rest2)
    else c :: translateNewlines rest

/-- Result of the `cat` method: a decoded text (as Unicode code points,
modelling a Python `str`) or the raw byte sequence. -/
inductive ReadResult where
  | text (codepoints : List Nat)
  | binary (rawBytes : List Nat)
deriving DecidableEq, Repr

/-- The `cat` method of `WindowsConsoleService`: validates existence and
non-directoriness, then reads the file as UTF-8 text (`read_text`:
strict decoding followed by universal-newline translation) or as raw
bytes (`read_bytes`). -/
def cat (fs : Fs) (cwd : FsPath) (file : String) (mode : FileReadMode) :
    Except Err ReadResult :=
  let p := resolveP cwd file
  if !existsB fs p then Except.error Err.notFound
  else if isDirB fs p then Except.error Err.isADirectory
  else match mode with
    | FileReadMode.string =>
      match utf8Decode (contentOf fs p) with
      | some cps => Except.ok (ReadResult.text (translateNewlines cps))
      | none => Except.error Err.decodeError
    | FileReadMode.bytes => Except.ok (ReadResult.binary (contentOf fs p))

/-- The process-wide session: filesystem, current working directory
(`os.getcwd()`), and the user's home directory (`os.path.expanduser`). -/
structure SessionState where
  fs : Fs
  cwd : FsPath
  home : FsPath
deriving Repr

/-- Whether the string has the form `~/subpath` (the second shorthand
the `cd` code tests with `startswith`). -/
def startsWithTildeSlash (s : String) : Bool :=
  match s.data with
  | c :: c2 :: _ => c = '~' && c2 = '/'
  | _ => false

/-- Home-shorthand handling of `os.path.expanduser`, restricted to the
two forms the `cd` code tests for (`~` alone and `~/subpath`). -/
def expandUser (home : FsPath) (s : String) : String :=
  if s == "~" then pathToString home
  else if startsWithTildeSlash s then pathToString home ++ String.mk (s.data.drop 1)
  else s

/-- The `cd` method of `WindowsConsoleService`: expands `~`/`~/...`,
joins a relative path onto the current working directory, resolves to
canonical absolute form, checks existence and directoriness, then
mutates the working directory and returns the canonical path string. -/
def cd (st : SessionState) (path : String) : Except Err (SessionState × String) :=
  let pathStr := if path == "~" || startsWithTildeSlash path then expandUser st.home path else path
  let target := resolveP st.cwd pathStr
  if !existsB st.fs target then Except.error Err.notFound
  else if !isDirB st.fs target then Except.error Err.notADirectory
  else Except.ok ({ st with cwd := target }, pathToString target)

/-- The canonical target of `change_directory` as the specification words
it: expand home shorthand, join with the current working directory if
relative, then resolve to canonical absolute form. -/
def specCanonicalTarget (st : SessionState) (path : String) : FsPath :=
  resolveP st.cwd (expandUser st.home path)

/-- The per-child loop of the directory branch of `cp` when the final
destination already exists as a directory: each top-level child of the
source is copied wholesale — `shutil.copytree` for a directory child
(failing when its target exists), `shutil.copy2` for a file child. -/
def copyChildren (fs : Fs) (srcP finalDst : FsPath) : List String → Except Err Fs
  | [] => Except.ok fs
  | n :: rest =>
    let child := srcP ++ [n]
    let target := finalDst ++ [n]
    if isDirB fs child then
      match copytree fs child target with
      | Except.error e => Except.error e
      | Except.ok fs2 => copyChildren fs2 srcP finalDst rest
    else
      match copy2 fs child target with
      | Except.error e => Except.error e
      | Except.ok fs2 => copyChildren fs2 srcP finalDst rest

/-- The `cp` method of `WindowsConsoleService`.  Directory sources demand
`recursive`; when the destination is an existing directory the copy goes
to `dst / src.name`; an existing directory there receives the source's
children one by one (see `copyChildren`), an existing non-directory is
refused, and a missing target receives the whole tree via `copytree`.
File sources are copied with `copy2`, creating missing parents of the
final target first. -/
def cp (fs : Fs) (cwd : FsPath) (src dst : String) (recursive : Bool) : Except Err Fs :=
  let srcP := resolveP cwd src
  let dstP := resolveP cwd dst
  if !existsB fs srcP then Except.error Err.notFound
  else if isDirB fs srcP then
    if !recursive then Except.error Err.isADirectory
    else
      let finalDst := if existsB fs dstP && isDirB fs dstP then dstP ++ [baseName src] else dstP
      if existsB fs finalDst then
        if isDirB fs finalDst then
          copyChildren fs srcP finalDst (childNames fs srcP)
        else Except.error Err.alreadyExists
      else copytree fs srcP finalDst
  else
    let finalDst := if existsB fs dstP && isDirB fs dstP then dstP ++ [baseName src] else dstP
    match (if existsB fs (parentP finalDst) then Except.ok fs
           else mkdirParents fs (parentP finalDst)) with
    | Except.error e => Except.error e
    | Except.ok fs1 => copy2 fs1 srcP finalDst

/-- The `mv` method of `WindowsConsoleService`: requires the source to
exist, aims at `dst / src.name` when the destination is an existing
directory and at `dst` itself otherwise, creates the target's missing
parent directories, then delegates to `shutil.move`. -/
def mv (fs : Fs) (cwd : FsPath) (src dst : String) : Except Err Fs :=
  let srcP := resolveP cwd src
  let dstP := resolveP cwd dst
  if !existsB fs srcP then Except.error Err.notFound
  else
    let finalDst := if existsB fs dstP && isDirB fs dstP then dstP ++ [baseName src] else dstP
    match mkdirParents fs (parentP finalDst) with
    | Except.error e => Except.error e
    | Except.ok fs1 => shutilMove fs1 srcP finalDst

/-- The `rm` method of `WindowsConsoleService`: refuses the trimmed
literal arguments `..` and `/` before anything else, resolves the path,
refuses the volume root, then checks existence, demands `recursive` for
directories, and deletes the file or the subtree. -/
def rm (fs : Fs) (cwd : FsPath) (target : String) (recursive : Bool) : Except Err Fs :=
  let pathStr := stripWs target
  if pathStr == ".." || pathStr == "/" then Except.error Err.permissionDenied
  else
    let resolved := resolveP cwd target
    if resolved == ([] : FsPath) then Except.error Err.permissionDenied
    else if !existsB fs resolved then Except.error Err.notFound
    else if isDirB fs resolved then
      if !recursive then Except.error Err.isADirectory
      else Except.ok (removeSubtree fs resolved)
    else Except.ok (removeAt fs resolved)

/-- The abstract methods declared with `@abstractmethod` by
`OSConsoleServiceBase` in `src/services/base.py`. -/
def abstractMethodsOfBase : List String :=
  ["ls", "cat", "cd", "cp", "mv", "rm", "zip", "unzip", "tar_dir", "untar", "grep"]

/-- The methods `WindowsConsoleService` defines in
`src/services/windows_console.py`. -/
def methodsOfWindowsConsoleService : List String :=
  ["__init__", "format_detailed", "ls", "cat", "cd", "cp", "mv", "rm"]

/-- The abstract methods `WindowsConsoleService` leaves unimplemented. -/
def unimplementedAbstract : List String :=
  abstractMethodsOfBase.filter (fun n => !(methodsOfWindowsConsoleService.contains n))

/-- Python ABC semantics: instantiating a subclass of an `ABC` raises
`TypeError` — before `__init__` ever runs, hence for every constructor
argument — exactly when at least one abstract method remains
unimplemented. -/
def constructingServiceRaisesTypeError : Bool :=
  !unimplementedAbstract.isEmpty

/-- Lossy UTF-8 decoding: like `utf8Decode` but a byte that cannot start
or complete a valid sequence is dropped and decoding continues, the way
the specification describes undecodable input being handled during
search. -/
def lossyDecode : List Nat → List Nat
  | [] => []
  | b0 :: bs =>
    if b0 < 0x80 then b0 :: lossyDecode bs
    else if b0 < 0xC2 then lossyDecode bs
    else if b0 < 0xE0 then
      match bs with
      | b1 :: bs1 =>
        if 0x80 ≤ b1 ∧ b1 < 0xC0 then
          ((b0 - 0xC0) * 64 + (b1 - 0x80)) :: lossyDecode bs1
        else lossyDecode (b1 :: bs1)
      | [] => []
    else if b0 < 0xF0 then
      match bs with
      | b1 :: b2 :: bs2 =>
        if (0x80 ≤ b1 ∧ b1 < 0xC0) ∧ (0x80 ≤ b2 ∧ b2 < 0xC0)
            ∧ ¬(b0 = 0xE0 ∧ b1 < 0xA0) ∧ ¬(b0 = 0xED ∧ 0xA0 ≤ b1) then
          ((b0 - 0xE0) * 4096 + (b1 - 0x80) * 64 + (b2 - 0x80)) :: lossyDecode bs2
        else lossyDecode (b1 :: b2 :: bs2)
      | [b1] => lossyDecode [b1]
      | [] => []
    else if b0 < 0xF5 then
      match bs with
      | b1 :: b2 :: b3 :: bs3 =>
        if (0x80 ≤ b1 ∧ b1 < 0xC0) ∧ (0x80 ≤ b2 ∧ b2 < 0xC0) ∧ (0x80 ≤ b3 ∧ b3 < 0xC0)
            ∧ ¬(b0 = 0xF0 ∧ b1 < 0x90) ∧ ¬(b0 = 0xF4 ∧ 0x90 ≤ b1) then
          ((b0 - 0xF0) * 262144 + (b1 - 0x80) * 4096 + (b2 - 0x80) * 64 + (b3 - 0x80))
            :: lossyDecode bs3
        else lossyDecode (b1 :: b2 :: b3 :: bs3)
      | [b1, b2] => lossyDecode [b1, b2]
      | [b1] => lossyDecode [b1]
      | [] => []
    else lossyDecode bs
termination_by l => l.length
decreasing_by all_goals simp [List.length] <;> omega

/-- Build a Lean string from a list of Unicode code points. -/
def stringOfCodes (l : List Nat) : String :=
  String.mk (l.map Char.ofNat)

/-- Split a code-point sequence at every newline (code point 10), keeping
empty segments. -/
def splitOnNl : List Nat → List (List Nat)
  | [] => [[]]
  | c :: rest =>
    if c = 10 then [] :: splitOnNl rest
    else
      match splitOnNl rest with
      | h :: t => (c :: h) :: t
      | [] => [[c]]

/-- The lines of a text, the way iterating a Python file yields them
once terminators are stripped: a trailing newline does not open a final
empty line, and an empty text has no lines. -/
def linesOf (cps : List Nat) : List String :=
  let pieces := splitOnNl cps
  let kept := if pieces.getLast? = some [] then pieces.dropLast else pieces
  kept.map stringOfCodes

/-- One search result, `"<file path>:<line number>:<trimmed line text>"`. -/
def fmtMatch (pathStr : String) (lineNo : Nat) (line : String) : String :=
  pathStr ++ ":" ++ toString lineNo ++ ":" ++ stripWs line

/-- Modelled from the spec: scanning one target file during `search`.
The repository declares `grep` abstract in `src/services/base.py` but
ships no implementation, so this follows §4.1 of the specification: the
file's bytes are decoded as UTF-8 with lossy handling, scanned line by
line with 1-based numbering, and every line on which the compiled
pattern finds a match contributes one formatted result.  The compiled
regular expression (with its `ignore_case` flag) is abstracted as the
line predicate `pattern`. -/
def grepFile (pattern : String → Bool) (pathStr : String) (content : List Nat) : List String :=
  (((linesOf (lossyDecode content)).enum).filter (fun pr => pattern pr.2)).map
    (fun pr => fmtMatch pathStr (pr.1 + 1) pr.2)

/-- The regular files among the direct children of `p` (non-recursive
target collection). -/
def directFiles (fs : Fs) (p : FsPath) : List FsPath :=
  (childrenOf fs p).filterMap (fun c => if c.2.isFileNode then some (p ++ [c.1]) else none)

/-- Every regular file in the subtree of `p` (recursive target
collection). -/
def walkFiles (fs : Fs) (p : FsPath) : List FsPath :=
  fs.filterMap (fun e =>
    if p.isPrefixOf e.1 && e.2.isFileNode then some e.1 else none)

/-- Modelled from the spec: the `search` (`grep`) operation, absent from
the implementation class.  A file path is its own single target; a
directory contributes its direct child files, or its whole subtree's
files when `recursive` is set; each target is scanned with `grepFile`
and the results are concatenated in traversal order. -/
def grep (pattern : String → Bool) (fs : Fs) (cwd : FsPath) (pathArg : String)
    (recursive : Bool) : Except Err (List String) :=
  let p := resolveP cwd pathArg
  if !existsB fs p then Except.error Err.notFound
  else if isDirB fs p then
    let targets := if recursive then walkFiles fs p else directFiles fs p
    Except.ok ((targets.map (fun t => grepFile pattern (pathToString t) (contentOf fs t))).flatten)
  else Except.ok (grepFile pattern (pathToString p) (contentOf fs p))

/-- A code point a Python `str` can hold and UTF-8 can carry: below
`0x110000` and not a surrogate. -/
def validCodepoint (c : Nat) : Prop :=
  c < 0x110000 ∧ ¬(0xD800 ≤ c ∧ c < 0xE000)

instance (c : Nat) : Decidable (validCodepoint c) :=
  inferInstanceAs (Decidable (_ ∧ _))

/-- A sample regular-file node. -/
def fNode (c : List Nat) : Node :=
  { kind := NodeKind.file c, meta := some { mode := 0o100644, size := c.length, mtime := 0 } }

/-- A sample directory node. -/
def dNode : Node :=
  { kind := NodeKind.dir, meta := some { mode := 0o40755, size := 0, mtime := 0 } }

/-- Sample tree `/tmp/a` with file `x.txt` (content `hello` + newline)
and subdirectory `b`. -/
def sampleFs : Fs :=
  [([], dNode), (["tmp"], dNode), (["tmp", "a"], dNode),
   (["tmp", "a", "x.txt"], fNode [104, 101, 108, 108, 111, 10]),
   (["tmp", "a", "b"], dNode)]

/-- Tree for the recursive-copy conflict: source `/s` has the
subdirectory `c`; destination `/d` already contains both a subdirectory
`c` and a subdirectory `s` that itself contains `c` — same-named
subdirectories on both sides under either reading of "destination". -/
def fsCopyClash : Fs :=
  [([], dNode), (["s"], dNode), (["s", "c"], dNode), (["d"], dNode),
   (["d", "c"], dNode), (["d", "s"], dNode), (["d", "s", "c"], dNode)]

/-- Tree for the move edge case: file `/a` and directory `/d` that
already contains a directory named `a`. -/
def fsMoveClash : Fs :=
  [([], dNode), (["a"], fNode [1]), (["d"], dNode), (["d", "a"], dNode)]

/-- A fixed stand-in for the timestamp renderer in concrete examples. -/
def fixedTime : Nat → String :=
  fun _ => "1970-01-01 00:00:00"

/-- Tree with a stat race: directory `/r` holds `ok.txt` (stat works)
and `gone.txt`, whose metadata can no longer be read. -/
def fsStatRace : Fs :=
  [([], dNode), (["r"], dNode),
   (["r", "ok.txt"], fNode [104, 105]),
   (["r", "gone.txt"], { kind := NodeKind.file [1, 2], meta := none })]

/-- Tree holding a UTF-8 encoded text file: `/f.txt` stores the
encoding of the two code points `h`, `é`. -/
def fsUtf8 : Fs :=
  [([], dNode), (["f.txt"], fNode (utf8Encode [104, 233]))]

/-- Tree holding the text file `/c.txt` whose content is the UTF-8
encoding of `a` followed by a carriage return. -/
def fsCarriage : Fs :=
  [([], dNode), (["c.txt"], fNode [97, 13])]

/-- Tree holding a three-line text file `/g.txt` with content
`ab`, `cd`, `ab` (newline-terminated lines). -/
def fsGrep : Fs :=
  [([], dNode), (["g.txt"], fNode [97, 98, 10, 99, 100, 10, 97, 98, 10])]

theorem lookupFs_cons (e : FsPath × Node) (fs : Fs) (p : FsPath) :
    lookupFs (e :: fs) p = if e.1 = p then some e.2 else lookupFs fs p := by
  unfold lookupFs
  rw [List.find?_cons]
  by_cases h : e.1 = p
  · simp [h]
  · have hb : (e.1 == p) = false := beq_eq_false_iff_ne.mpr h
    simp [h, hb]

theorem lookupFs_append (fs gs : Fs) (p : FsPath) :
    lookupFs (fs ++ gs) p = (lookupFs fs p).or (lookupFs gs p) := by
  unfold lookupFs
  rw [List.find?_append]
  cases List.find? (fun e => e.1 == p) fs <;> simp

theorem existsB_append_left (fs gs : Fs) (p : FsPath) (h : existsB fs p = true) :
    existsB (fs ++ gs) p = true := by
  unfold existsB at *
  rw [lookupFs_append]
  cases hl : lookupFs fs p <;> simp_all

theorem lookupFs_append_left (fs gs : Fs) (p : FsPath) (n : Node)
    (h : lookupFs fs p = some n) : lookupFs (fs ++ gs) p = some n := by
  rw [lookupFs_append, h]
  rfl

theorem existsB_of_isDirB (fs : Fs) (p : FsPath) (h : isDirB fs p = true) :
    existsB fs p = true := by
  unfold isDirB at h
  unfold existsB
  cases hl : lookupFs fs p <;> simp_all

theorem isDirB_false_of_not_exists (fs : Fs) (p : FsPath) (h : existsB fs p = false) :
    isDirB fs p = false := by
  unfold existsB at h
  unfold isDirB
  cases hl : lookupFs fs p <;> simp_all

theorem natListLe_total : ∀ a b : List Nat, natListLe a b = true ∨ natListLe b a = true
  | [], _ => Or.inl rfl
  | _ :: _, [] => Or.inr rfl
  | a :: as, b :: bs => by
    rcases Nat.lt_trichotomy a b with h | h | h
    · left
      simp [natListLe, h]
    · subst h
      rcases natListLe_total as bs with ih | ih
      · left
        simp [natListLe, ih]
      · right
        simp [natListLe, ih]
    · right
      simp [natListLe, h]

theorem natListLe_trans :
    ∀ a b c : List Nat, natListLe a b = true → natListLe b c = true → natListLe a c = true
  | [], _, _, _, _ => rfl
  | _ :: _, [], _, h, _ => by simp [natListLe] at h
  | _ :: _, _ :: _, [], _, h2 => by simp [natListLe] at h2
  | a :: as, b :: bs, c :: cs, h1, h2 => by
    simp only [natListLe, Bool.or_eq_true, Bool.and_eq_true, decide_eq_true_eq,
      beq_iff_eq] at h1 h2 ⊢
    rcases h1 with hlt | ⟨heq, hrec⟩
    · rcases h2 with hlt2 | ⟨heq2, _⟩
      · exact Or.inl (Nat.lt_trans hlt hlt2)
      · exact Or.inl (heq2 ▸ hlt)
    · rcases h2 with hlt2 | ⟨heq2, hrec2⟩
      · exact Or.inl (heq ▸ hlt2)
      · exact Or.inr ⟨heq.trans heq2, natListLe_trans as bs cs hrec hrec2⟩

instance : IsTotal (String × Node) keyLe :=
  ⟨fun a b => natListLe_total (entryKey a) (entryKey b)⟩

instance : IsTrans (String × Node) keyLe :=
  ⟨fun a b c => natListLe_trans (entryKey a) (entryKey b) (entryKey c)⟩

theorem decodeOne_length : ∀ {l : List Nat} {c : Nat} {rest : List Nat},
    decodeOne l = some (c, rest) → rest.length < l.length := by
  intro l c rest h
  rcases l with _ | ⟨b0, bs⟩
  · simp [decodeOne] at h
  · simp only [decodeOne] at h
    repeat' split at h
    all_goals simp_all
    all_goals omega

theorem utf8DecodeAux_fuel (f : Nat) (l : List Nat) (hle : l.length ≤ f) :
    utf8DecodeAux f l = utf8Decode l := by
  induction f using Nat.strong_induction_on generalizing l with
  | _ f ih =>
    rcases l with _ | ⟨b0, bs⟩
    · cases f <;> rfl
    · rcases f with _ | g
      · simp at hle
      · show (match decodeOne (b0 :: bs) with
          | some (c, rest) => (utf8DecodeAux g rest).map (fun r => c :: r)
          | none => none) =
          (match decodeOne (b0 :: bs) with
          | some (c, rest) => (utf8DecodeAux bs.length rest).map (fun r => c :: r)
          | none => none)
        have hbs : bs.length ≤ g := by simp at hle; omega
        cases hd : decodeOne (b0 :: bs) with
        | none => rfl
        | some pr =>
          rcases pr with ⟨c, rest⟩
          have hlen : rest.length < bs.length + 1 := by simpa using decodeOne_length hd
          dsimp only
          rw [ih g (by omega) rest (by omega), ih bs.length (by omega) rest (by omega)]

theorem utf8Decode_step {l : List Nat} {c : Nat} {rest : List Nat}
    (h : decodeOne l = some (c, rest)) :
    utf8Decode l = (utf8Decode rest).map (fun r => c :: r) := by
  rcases l with _ | ⟨b0, bs⟩
  · simp [decodeOne] at h
  · have hlen : rest.length < bs.length + 1 := by simpa using decodeOne_length h
    show (match decodeOne (b0 :: bs) with
      | some (c, rest) => (utf8DecodeAux bs.length rest).map (fun r => c :: r)
      | none => none) = _
    rw [h]
    dsimp only
    rw [utf8DecodeAux_fuel bs.length rest (by omega)]

theorem decodeOne_encodeChar (c : Nat) (hlt : c < 0x110000)
    (hsur : ¬(0xD800 ≤ c ∧ c < 0xE000)) (rest : List Nat) :
    decodeOne (utf8EncodeChar c ++ rest) = some (c, rest) := by
  by_cases h1 : c < 0x80
  · have he : utf8EncodeChar c = [c] := by rw [utf8EncodeChar, if_pos h1]
    rw [he]
    simp only [List.cons_append, List.nil_append, decodeOne]
    rw [if_pos h1]
  · by_cases h2 : c < 0x800
    · have he : utf8EncodeChar c = [0xC0 + c / 64, 0x80 + c % 64] := by
        rw [utf8EncodeChar, if_neg h1, if_pos h2]
      rw [he]
      simp only [List.cons_append, List.nil_append, decodeOne]
      rw [if_neg (by omega), if_neg (by omega), if_pos (by omega), if_pos (by omega)]
      have hv : (0xC0 + c / 64 - 0xC0) * 64 + (0x80 + c % 64 - 0x80) = c := by omega
      rw [hv]
    · by_cases h3 : c < 0x10000
      · have he : utf8EncodeChar c = [0xE0 + c / 4096, 0x80 + c / 64 % 64, 0x80 + c % 64] := by
          rw [utf8EncodeChar, if_neg h1, if_neg h2, if_pos h3]
        rw [he]
        simp only [List.cons_append, List.nil_append, decodeOne]
        rw [if_neg (by omega), if_neg (by omega), if_neg (by omega), if_pos (by omega),
          if_pos (by omega)]
        have hv : (0xE0 + c / 4096 - 0xE0) * 4096 + (0x80 + c / 64 % 64 - 0x80) * 64
            + (0x80 + c % 64 - 0x80) = c := by omega
        rw [hv]
      · have he : utf8EncodeChar c = [0xF0 + c / 262144, 0x80 + c / 4096 % 64,
            0x80 + c / 64 % 64, 0x80 + c % 64] := by
          rw [utf8EncodeChar, if_neg h1, if_neg h2, if_neg h3]
        rw [he]
        simp only [List.cons_append, List.nil_append, decodeOne]
        rw [if_neg (by omega), if_neg (by omega), if_neg (by omega), if_neg (by omega),
          if_pos (by omega), if_pos (by omega)]
        have hv : (0xF0 + c / 262144 - 0xF0) * 262144 + (0x80 + c / 4096 % 64 - 0x80) * 4096
            + (0x80 + c / 64 % 64 - 0x80) * 64 + (0x80 + c % 64 - 0x80) = c := by omega
        rw [hv]

theorem utf8Decode_encode (s : List Nat) (h : ∀ c ∈ s, validCodepoint c) :
    utf8Decode (utf8Encode s) = some s := by
  induction s with
  | nil => rfl
  | cons c cs ih =>
    have hc := h c (List.mem_cons_self c cs)
    have hcs : ∀ x ∈ cs, validCodepoint x := fun x hx => h x (List.mem_cons_of_mem c hx)
    have he : utf8Encode (c :: cs) = utf8EncodeChar c ++ utf8Encode cs := by
      simp [utf8Encode]
    rw [he, utf8Decode_step (decodeOne_encodeChar c hc.1 hc.2 (utf8Encode cs)), ih hcs]
    rfl

theorem lookupFs_eq_none_iff (fs : Fs) (p : FsPath) :
    lookupFs fs p = none ↔ ∀ e ∈ fs, e.1 ≠ p := by
  unfold lookupFs
  constructor
  · intro h e he heq
    have hf : List.find? (fun e => e.1 == p) fs = none := by
      cases hf : List.find? (fun e => e.1 == p) fs
      · rfl
      · rw [hf] at h
        exact absurd h (by simp)
    rw [List.find?_eq_none] at hf
    exact hf e he (beq_iff_eq.mpr heq)
  · intro h
    have hf : List.find? (fun e => e.1 == p) fs = none := by
      rw [List.find?_eq_none]
      intro x hx
      simp only [beq_iff_eq]
      exact h x hx
    rw [hf]
    rfl

theorem existsB_false_iff (fs : Fs) (p : FsPath) :
    existsB fs p = false ↔ ∀ e ∈ fs, e.1 ≠ p := by
  unfold existsB
  rw [← lookupFs_eq_none_iff fs p]
  cases lookupFs fs p <;> simp

theorem isDirB_append_left (fs gs : Fs) (p : FsPath) (h : isDirB fs p = true) :
    isDirB (fs ++ gs) p = true := by
  unfold isDirB at *
  cases hl : lookupFs fs p with
  | none => rw [hl] at h; exact absurd h (by simp)
  | some n =>
    rw [lookupFs_append_left fs gs p n hl]
    rw [hl] at h
    exact h

theorem isDirB_of_lookup (fs : Fs) (p : FsPath) (n : Node)
    (h : lookupFs fs p = some n) (hk : n.kind = NodeKind.dir) : isDirB fs p = true := by
  unfold isDirB
  rw [h]
  dsimp only
  rw [hk]
  rfl

theorem neq_of_isPrefixOf_false {a b : FsPath} (h : a.isPrefixOf b = false) : a ≠ b := by
  intro hab
  subst hab
  rw [List.isPrefixOf_iff_prefix.mpr (List.prefix_refl a)] at h
  exact absurd h (by simp)

theorem append_neq_of_isPrefixOf_false {d q : FsPath} (h : d.isPrefixOf q = false)
    (x : FsPath) : d ++ x ≠ q := by
  intro he
  rw [List.isPrefixOf_iff_prefix.mpr ⟨x, he⟩] at h
  exact absurd h (by simp)

theorem lookupFs_moveSubtree_target (fs : Fs) (s d : FsPath)
    (hd : existsB fs d = false) :
    lookupFs (moveSubtree fs s d) d = lookupFs fs s := by
  induction fs with
  | nil => rfl
  | cons e fs ih =>
    have hcons := (existsB_false_iff (e :: fs) d).mp hd
    have hed : e.1 ≠ d := hcons e (List.mem_cons_self e fs)
    have hfs : existsB fs d = false :=
      (existsB_false_iff fs d).mpr (fun x hx => hcons x (List.mem_cons_of_mem e hx))
    have hms : moveSubtree (e :: fs) s d =
        (if s.isPrefixOf e.1 then (d ++ e.1.drop s.length, e.2) else e) :: moveSubtree fs s d := by
      simp [moveSubtree]
    rw [hms]
    by_cases hsp : s.isPrefixOf e.1 = true
    · by_cases hes : e.1 = s
      · subst hes
        rw [if_pos hsp, lookupFs_cons, lookupFs_cons]
        simp [List.drop_length]
      · have hplen : s.length < e.1.length := by
          have hpre := List.isPrefixOf_iff_prefix.mp hsp
          rcases Nat.lt_or_ge s.length e.1.length with hlt | hge
          · exact hlt
          · exact absurd (hpre.eq_of_length (Nat.le_antisymm hpre.length_le hge)).symm hes
        have hkey : d ++ e.1.drop s.length ≠ d := by
          intro hk
          have : (d ++ e.1.drop s.length).length = d.length := by rw [hk]
          simp [List.length_drop] at this
          omega
        rw [if_pos hsp, lookupFs_cons, lookupFs_cons]
        rw [if_neg hkey, if_neg hes]
        exact ih hfs
    · have hes : e.1 ≠ s := by
        intro hh
        subst hh
        rw [List.isPrefixOf_iff_prefix.mpr (List.prefix_refl e.1)] at hsp
        exact hsp rfl
      rw [if_neg hsp, lookupFs_cons, lookupFs_cons, if_neg hed, if_neg hes]
      exact ih hfs

theorem lookupFs_moveSubtree_src (fs : Fs) (s d : FsPath)
    (hd : d.isPrefixOf s = false) :
    lookupFs (moveSubtree fs s d) s = none := by
  induction fs with
  | nil => rfl
  | cons e fs ih =>
    have hms : moveSubtree (e :: fs) s d =
        (if s.isPrefixOf e.1 then (d ++ e.1.drop s.length, e.2) else e) :: moveSubtree fs s d := by
      simp [moveSubtree]
    rw [hms]
    by_cases hsp : s.isPrefixOf e.1 = true
    · rw [if_pos hsp, lookupFs_cons, if_neg (append_neq_of_isPrefixOf_false hd _)]
      exact ih
    · have hes : e.1 ≠ s := by
        intro hh
        subst hh
        rw [List.isPrefixOf_iff_prefix.mpr (List.prefix_refl e.1)] at hsp
        exact hsp rfl
      rw [if_neg hsp, lookupFs_cons, if_neg hes]
      exact ih

theorem lookupFs_moveSubtree_untouched (fs : Fs) (s d q : FsPath)
    (hs : s.isPrefixOf q = false) (hd : d.isPrefixOf q = false) :
    lookupFs (moveSubtree fs s d) q = lookupFs fs q := by
  induction fs with
  | nil => rfl
  | cons e fs ih =>
    have hms : moveSubtree (e :: fs) s d =
        (if s.isPrefixOf e.1 then (d ++ e.1.drop s.length, e.2) else e) :: moveSubtree fs s d := by
      simp [moveSubtree]
    rw [hms]
    by_cases hsp : s.isPrefixOf e.1 = true
    · have heq : e.1 ≠ q := by
        intro hh
        subst hh
        rw [hsp] at hs
        exact absurd hs (by simp)
      rw [if_pos hsp, lookupFs_cons, lookupFs_cons,
        if_neg (append_neq_of_isPrefixOf_false hd _), if_neg heq]
      exact ih
    · rw [if_neg hsp, lookupFs_cons, lookupFs_cons]
      by_cases heq : e.1 = q
      · rw [if_pos heq, if_pos heq]
      · rw [if_neg heq, if_neg heq]
        exact ih

theorem foldl_mkdir_id (l : List FsPath) (fs : Fs) (h : ∀ q ∈ l, existsB fs q = true) :
    l.foldl (fun acc q => if existsB acc q then acc else acc ++ [(q, newDirNode)]) fs = fs := by
  induction l with
  | nil => rfl
  | cons q l ih =>
    rw [List.foldl_cons, if_pos (h q (List.mem_cons_self q l))]
    exact ih (fun r hr => h r (List.mem_cons_of_mem q hr))

theorem mkdirParents_eq_of_allDirs (fs : Fs) (p : FsPath)
    (h : ∀ q ∈ prefixChain p, isDirB fs q = true) :
    mkdirParents fs p = Except.ok fs := by
  unfold mkdirParents
  have hall : (prefixChain p).all (fun q => !existsB fs q || isDirB fs q) = true := by
    rw [List.all_eq_true]
    intro q hq
    rw [h q hq]
    simp
  rw [if_pos hall, foldl_mkdir_id _ _ (fun q hq => existsB_of_isDirB fs q (h q hq))]

theorem foldl_mkdir_creates (l : List FsPath) (fs : Fs) :
    ∃ gs, l.foldl (fun acc q => if existsB acc q then acc else acc ++ [(q, newDirNode)]) fs
        = fs ++ gs
      ∧ (∀ e ∈ gs, e.1 ∈ l ∧ e.2 = newDirNode)
      ∧ (∀ q ∈ l, existsB fs q = false → lookupFs (fs ++ gs) q = some newDirNode) := by
  induction l generalizing fs with
  | nil => exact ⟨[], by simp, by simp, by simp⟩
  | cons q l ih =>
    rw [List.foldl_cons]
    by_cases hq : existsB fs q = true
    · rw [if_pos hq]
      obtain ⟨gs, hfold, hkeys, hnew⟩ := ih fs
      refine ⟨gs, hfold, ?_, ?_⟩
      · exact fun e he => ⟨List.mem_cons_of_mem q (hkeys e he).1, (hkeys e he).2⟩
      · intro r hr hrf
        rcases List.mem_cons.mp hr with rfl | hr2
        · rw [hq] at hrf
          exact absurd hrf (by simp)
        · exact hnew r hr2 hrf
    · rw [if_neg hq]
      rw [Bool.not_eq_true] at hq
      obtain ⟨gs, hfold, hkeys, hnew⟩ := ih (fs ++ [(q, newDirNode)])
      refine ⟨(q, newDirNode) :: gs, ?_, ?_, ?_⟩
      · rw [hfold, List.append_assoc]
        rfl
      · intro e he
        rcases List.mem_cons.mp he with rfl | he2
        · exact ⟨List.mem_cons_self q l, rfl⟩
        · exact ⟨List.mem_cons_of_mem q (hkeys e he2).1, (hkeys e he2).2⟩
      · intro r hr hrf
        by_cases hrq : r = q
        · subst hrq
          have hfsr : lookupFs fs r = none := by
            unfold existsB at hrf
            cases hl : lookupFs fs r
            · rfl
            · rw [hl] at hrf
              exact absurd hrf (by simp)
          rw [lookupFs_append, hfsr]
          rw [lookupFs_cons]
          simp
        · rcases List.mem_cons.mp hr with rfl | hr2
          · exact absurd rfl hrq
          · have hstep : existsB (fs ++ [(q, newDirNode)]) r = false := by
              rw [existsB_false_iff]
              intro e he
              rcases List.mem_append.mp he with he1 | he2
              · exact (existsB_false_iff fs r).mp hrf e he1
              · rcases List.mem_singleton.mp he2 with rfl
                exact fun hh => hrq hh.symm
            have hfin := hnew r hr2 hstep
            rw [List.append_assoc] at hfin
            simpa using hfin

theorem prefixChain_pre {q p : FsPath} (h : q ∈ prefixChain p) : q <+: p := by
  rw [prefixChain, List.mem_map] at h
  obtain ⟨i, _, rfl⟩ := h
  exact List.take_prefix (i + 1) p

theorem parentP_concat (p : FsPath) (x : String) : parentP (p ++ [x]) = p := by
  rw [parentP, List.dropLast_concat]

theorem length_filter_enumFrom {α : Type} (p : α → Bool) :
    ∀ (l : List α) (n : Nat),
    ((List.enumFrom n l).filter (fun pr => p pr.2)).length = (l.filter p).length := by
  intro l
  induction l with
  | nil => intro n; rfl
  | cons a l ih =>
    intro n
    rw [List.enumFrom_cons, List.filter_cons, List.filter_cons]
    cases hpa : p a
    · simp only [hpa, Bool.false_eq_true, if_false, ih (n + 1)]
    · simp only [hpa, if_true, List.length_cons, ih (n + 1)]

theorem pairwise_fst_filter_enum {α : Type} (p : α → Bool) (l : List α) :
    List.Pairwise (· < ·) ((l.enum.filter (fun pr => p pr.2)).map Prod.fst) := by
  have h1 : List.Pairwise (· < ·) (l.enum.map Prod.fst) := by
    rw [List.enum_map_fst]
    exact List.pairwise_lt_range l.length
  exact List.Pairwise.sublist (List.Sublist.map Prod.fst (List.filter_sublist l.enum)) h1

/-- Claim C1: constructing the console service always fails.
`WindowsConsoleService` leaves the abstract methods `zip`, `unzip`,
`tar_dir`, `untar` and `grep` of `OSConsoleServiceBase` unimplemented, so
by Python ABC semantics `WindowsConsoleService(logger)` raises
`TypeError` for every logger argument (the check precedes `__init__`),
and no archive or search operation promised by the interface is callable
on any instance, because no instance can exist. -/
theorem claim1_construction_always_raises_TypeError :
    constructingServiceRaisesTypeError = true ∧
    unimplementedAbstract = ["zip", "unzip", "tar_dir", "untar", "grep"] ∧
    ∀ m ∈ unimplementedAbstract, m ∈ abstractMethodsOfBase ∧
      m ∉ methodsOfWindowsConsoleService := by
  refine ⟨rfl, by decide, by decide⟩

/-- Claim C2: `rm` refuses, with `PermissionError`, any argument whose
trimmed raw string is exactly `..` or the root string `/`, before any
resolution or existence check (the result is this error for every
filesystem and working directory); and after resolution it also refuses
any path that resolves to the volume root.  Both failures return an
error without touching the filesystem (`rm` only returns a new
filesystem in its `Except.ok` result). -/
theorem claim2_rm_safety_guards (fs : Fs) (cwd : FsPath) (target : String) (recursive : Bool) :
    ((stripWs target = ".." ∨ stripWs target = "/") →
      rm fs cwd target recursive = Except.error Err.permissionDenied) ∧
    (resolveP cwd target = [] →
      rm fs cwd target recursive = Except.error Err.permissionDenied) := by
  constructor
  · intro h
    simp only [rm]
    rcases h with h | h <;> rw [h] <;> rfl
  · intro h
    simp only [rm]
    by_cases h1 : (stripWs target == ".." || stripWs target == "/") = true
    · rw [if_pos h1]
    · rw [if_neg h1, h]
      rfl

/-- Witness for claim C2 at concrete inputs: removing `..` (any working
directory) and a path resolving to the root both signal the permission
error. -/
theorem claim2_rm_safety_guards_witness :
    rm sampleFs [] ".." false = Except.error Err.permissionDenied ∧
    rm sampleFs ["tmp", "a"] "../.." true = Except.error Err.permissionDenied :=
  ⟨(claim2_rm_safety_guards sampleFs [] ".." false).1 (Or.inl (by decide)),
   (claim2_rm_safety_guards sampleFs ["tmp", "a"] "../.." true).2 (by decide)⟩

/-- Claim C8: `cp` on an existing directory source with
`recursive = false` always signals `IsADirectoryError` and performs no
mutation (the error result carries no filesystem; the input one is
untouched). -/
theorem claim8_copy_dir_nonrecursive (fs : Fs) (cwd : FsPath) (src dst : String)
    (h : isDirB fs (resolveP cwd src) = true) :
    cp fs cwd src dst false = Except.error Err.isADirectory := by
  have hex : existsB fs (resolveP cwd src) = true := existsB_of_isDirB _ _ h
  simp [cp, hex, h]

/-- Witness for claim C8: copying the directory `/tmp/a` without the
recursive flag fails with the is-a-directory error. -/
theorem claim8_copy_dir_nonrecursive_witness :
    cp sampleFs [] "/tmp/a" "/x" false = Except.error Err.isADirectory :=
  claim8_copy_dir_nonrecursive sampleFs [] "/tmp/a" "/x" (by decide)

/-- Claim C3: for every existing directory, `ls` in simple mode returns
exactly one string per direct child — the child's name followed by a
line terminator — and the children appear ordered by the sort key
`(is_file, name.lower())` (`keyLe`): directories before files,
ascending case-insensitively within each group.  The returned list is a
permutation of the directory's children rendered as `name + "\n"`. -/
theorem claim3_ls_simple_sorted (fmtTime : Nat → String) (fs : Fs) (cwd : FsPath)
    (pathArg : String) (hd : isDirB fs (resolveP cwd pathArg) = true) :
    ∃ cs : List (String × Node),
      cs.Perm (childrenOf fs (resolveP cwd pathArg)) ∧
      List.Sorted keyLe cs ∧
      ls fmtTime fs cwd pathArg FileDisplayMode.simple
        = Except.ok (cs.map (fun e => e.1 ++ "\n")) := by
  have hex : existsB fs (resolveP cwd pathArg) = true := existsB_of_isDirB _ _ hd
  refine ⟨List.insertionSort keyLe (childrenOf fs (resolveP cwd pathArg)),
    List.perm_insertionSort keyLe _, List.sorted_insertionSort keyLe _, ?_⟩
  simp [ls, hex, hd]

/-- Witness for claim C3: the listing of `/tmp/a`, which holds the file
`x.txt` and the subdirectory `b`. -/
theorem claim3_ls_simple_sorted_witness :
    ∃ cs : List (String × Node),
      cs.Perm (childrenOf sampleFs (resolveP [] "/tmp/a")) ∧
      List.Sorted keyLe cs ∧
      ls fixedTime sampleFs [] "/tmp/a" FileDisplayMode.simple
        = Except.ok (cs.map (fun e => e.1 ++ "\n")) :=
  claim3_ls_simple_sorted fixedTime sampleFs [] "/tmp/a" rfl

/-- Counterexample for claim C5: when per-entry metadata retrieval
fails, `format_detailed` emits the line `? ? ? ? <name>` — its first
character is `?`, not the claimed type character `-`, and it contains
neither a zero size nor an epoch timestamp. -/
theorem claim5_placeholder_counterexample :
    formatDetailed fixedTime "x" false none = "? ? ? ? x\n" ∧
    (formatDetailed fixedTime "x" false none).data.head? = some '?' ∧
    some '?' ≠ some '-' :=
  ⟨rfl, rfl, by decide⟩

/-- Claim C5 amended: when per-entry metadata retrieval fails during a
detailed listing, `list_directory` does not abort: it emits for that
entry the question-mark placeholder line `? ? ? ? <real name>` (rather
than a type-`-`/zero-size/epoch line), logs a warning, and still
returns one line for every entry of the directory. -/
theorem claim5_amended_placeholder (fmtTime : Nat → String) (fs : Fs) (cwd : FsPath)
    (pathArg : String) (hd : isDirB fs (resolveP cwd pathArg) = true) :
    ∃ out, ls fmtTime fs cwd pathArg FileDisplayMode.detailed = Except.ok out ∧
      out.length = (childrenOf fs (resolveP cwd pathArg)).length ∧
      ∀ e ∈ childrenOf fs (resolveP cwd pathArg), e.2.meta = none →
        ("? ? ? ? " ++ e.1 ++ "\n") ∈ out := by
  have hex : existsB fs (resolveP cwd pathArg) = true := existsB_of_isDirB _ _ hd
  refine ⟨(List.insertionSort keyLe (childrenOf fs (resolveP cwd pathArg))).map
      (fun e => formatDetailed fmtTime e.1 (e.2.kind == NodeKind.dir) e.2.meta),
    ?_, ?_, ?_⟩
  · simp [ls, hex, hd]
  · rw [List.length_map]
    exact (List.perm_insertionSort keyLe _).length_eq
  · intro e he hm
    have hmem : e ∈ List.insertionSort keyLe (childrenOf fs (resolveP cwd pathArg)) :=
      ((List.perm_insertionSort keyLe _).mem_iff).mpr he
    refine List.mem_map.mpr ⟨e, hmem, ?_⟩
    rw [hm]
    rfl

/-- Witness for the amended claim C5: listing `/r`, where the stat data
of `gone.txt` is unavailable, still yields one line per entry and the
placeholder line for `gone.txt`. -/
theorem claim5_amended_placeholder_witness :
    ∃ out, ls fixedTime fsStatRace [] "/r" FileDisplayMode.detailed = Except.ok out ∧
      out.length = (childrenOf fsStatRace (resolveP [] "/r")).length ∧
      ∀ e ∈ childrenOf fsStatRace (resolveP [] "/r"), e.2.meta = none →
        ("? ? ? ? " ++ e.1 ++ "\n") ∈ out :=
  claim5_amended_placeholder fixedTime fsStatRace [] "/r" rfl

/-- Claim C6: `cd` resolves its argument by first expanding home
shorthand (`~` or `~/subpath`), then joining with the current working
directory if relative, then resolving to canonical absolute form
(collapsing `.` and `..`; the model is symlink-free, over which
`resolve()` is exactly this) — the pipeline stated by
`specCanonicalTarget`.  It signals `NotFound` when the canonical target
does not exist and `NotADirectory` when it exists but is not a
directory; on success it mutates the session working directory to the
canonical path and returns that path as a string. -/
theorem claim6_cd_resolution (st : SessionState) (path : String) :
    (existsB st.fs (specCanonicalTarget st path) = false →
      cd st path = Except.error Err.notFound) ∧
    (existsB st.fs (specCanonicalTarget st path) = true →
      isDirB st.fs (specCanonicalTarget st path) = false →
      cd st path = Except.error Err.notADirectory) ∧
    (isDirB st.fs (specCanonicalTarget st path) = true →
      cd st path = Except.ok ({ st with cwd := specCanonicalTarget st path },
        pathToString (specCanonicalTarget st path))) := by
  have hps : (if path == "~" || startsWithTildeSlash path
        then expandUser st.home path else path)
      = expandUser st.home path := by
    by_cases hg : (path == "~" || startsWithTildeSlash path) = true
    · rw [if_pos hg]
    · rw [if_neg hg]
      have h1 : (path == "~") = false := by
        cases h : (path == "~") <;> simp_all
      have h2 : startsWithTildeSlash path = false := by
        cases h : startsWithTildeSlash path <;> simp_all
      simp [expandUser, h1, h2]
  have hcd : cd st path =
      (if !existsB st.fs (specCanonicalTarget st path) then Except.error Err.notFound
       else if !isDirB st.fs (specCanonicalTarget st path) then Except.error Err.notADirectory
       else Except.ok ({ st with cwd := specCanonicalTarget st path },
         pathToString (specCanonicalTarget st path))) := by
    simp only [cd, specCanonicalTarget, hps]
  refine ⟨?_, ?_, ?_⟩
  · intro h
    rw [hcd, h]
    rfl
  · intro hx h
    rw [hcd, hx, h]
    rfl
  · intro h
    rw [hcd, existsB_of_isDirB _ _ h, h]
    rfl

/-- Witness for claim C6: `cd "~"` from `/tmp` with home `/tmp/a` lands
in `/tmp/a`, updates the working directory and returns the canonical
string. -/
theorem claim6_cd_resolution_witness :
    cd { fs := sampleFs, cwd := ["tmp"], home := ["tmp", "a"] } "~"
      = Except.ok ({ fs := sampleFs, cwd := ["tmp", "a"], home := ["tmp", "a"] }, "/tmp/a") :=
  (claim6_cd_resolution { fs := sampleFs, cwd := ["tmp"], home := ["tmp", "a"] } "~").2.2 rfl

theorem translateNewlines_id (s : List Nat) (h : ∀ c ∈ s, c ≠ 13) :
    translateNewlines s = s := by
  induction s with
  | nil => rfl
  | cons c rest ih =>
    have hc : c ≠ 13 := h c (List.mem_cons_self c rest)
    have hrest : ∀ x ∈ rest, x ≠ 13 := fun x hx => h x (List.mem_cons_of_mem c hx)
    rw [translateNewlines.eq_def]
    dsimp only
    rw [if_neg hc, ih hrest]

/-- Counterexample for claim C9: the file `/c.txt` was written with the
known text `a` followed by a carriage return (code points 97, 13), but
`read_file` in text mode returns `a` followed by a line feed (97, 10):
`Path.read_text` opens the file with `newline=None` and translates
`\r\n` and `\r` to `\n`, so the round trip fails for any text
containing a carriage return. -/
theorem claim9_crlf_counterexample :
    lookupFs fsCarriage (resolveP [] "/c.txt")
      = some { kind := NodeKind.file (utf8Encode [97, 13]), meta := (fNode [97, 13]).meta } ∧
    cat fsCarriage [] "/c.txt" FileReadMode.string = Except.ok (ReadResult.text [97, 10]) ∧
    ReadResult.text [97, 10] ≠ ReadResult.text [97, 13] :=
  ⟨rfl, rfl, by decide⟩

/-- Claim C9 amended: binary mode round-trips exactly — a file written
with known bytes is read back unmodified.  Text mode returns the strict
UTF-8 decoding of the file's bytes with universal-newline translation
applied (`\r\n` and `\r` become `\n`), so a file written as the UTF-8
encoding of a known text is read back exactly when the text contains no
carriage return, and in general the text read back is the
newline-translated original. -/
theorem claim9_amended_cat_roundtrip (fs : Fs) (cwd : FsPath) (file : String) :
    (∀ (s : List Nat) (m : Option StatInfo),
      (∀ c ∈ s, validCodepoint c) →
      lookupFs fs (resolveP cwd file)
        = some { kind := NodeKind.file (utf8Encode s), meta := m } →
      cat fs cwd file FileReadMode.string
        = Except.ok (ReadResult.text (translateNewlines s))) ∧
    (∀ (s : List Nat) (m : Option StatInfo),
      (∀ c ∈ s, validCodepoint c) → (∀ c ∈ s, c ≠ 13) →
      lookupFs fs (resolveP cwd file)
        = some { kind := NodeKind.file (utf8Encode s), meta := m } →
      cat fs cwd file FileReadMode.string = Except.ok (ReadResult.text s)) ∧
    (∀ (b : List Nat) (m : Option StatInfo),
      lookupFs fs (resolveP cwd file) = some { kind := NodeKind.file b, meta := m } →
      cat fs cwd file FileReadMode.bytes = Except.ok (ReadResult.binary b)) := by
  have htext : ∀ (s : List Nat) (m : Option StatInfo),
      (∀ c ∈ s, validCodepoint c) →
      lookupFs fs (resolveP cwd file)
        = some { kind := NodeKind.file (utf8Encode s), meta := m } →
      cat fs cwd file FileReadMode.string
        = Except.ok (ReadResult.text (translateNewlines s)) := by
    intro s m hv hl
    have hex : existsB fs (resolveP cwd file) = true := by
      unfold existsB
      rw [hl]
      rfl
    have hdir : isDirB fs (resolveP cwd file) = false := by
      unfold isDirB
      rw [hl]
      rfl
    have hcont : contentOf fs (resolveP cwd file) = utf8Encode s := by
      unfold contentOf
      rw [hl]
    simp [cat, hex, hdir, hcont, utf8Decode_encode s hv]
  refine ⟨htext, ?_, ?_⟩
  · intro s m hv hcr hl
    rw [htext s m hv hl, translateNewlines_id s hcr]
  · intro b m hl
    have hex : existsB fs (resolveP cwd file) = true := by
      unfold existsB
      rw [hl]
      rfl
    have hdir : isDirB fs (resolveP cwd file) = false := by
      unfold isDirB
      rw [hl]
      rfl
    have hcont : contentOf fs (resolveP cwd file) = b := by
      unfold contentOf
      rw [hl]
    simp [cat, hex, hdir, hcont]

/-- Witness for the amended claim C9: the carriage-return-free text
`hé` (code points 104, 233) round-trips exactly through text mode, its
encoded bytes round-trip through binary mode, and the
carriage-return file `/c.txt` comes back newline-translated. -/
theorem claim9_amended_cat_roundtrip_witness :
    cat fsUtf8 [] "/f.txt" FileReadMode.string = Except.ok (ReadResult.text [104, 233]) ∧
    cat fsUtf8 [] "/f.txt" FileReadMode.bytes
      = Except.ok (ReadResult.binary (utf8Encode [104, 233])) ∧
    cat fsCarriage [] "/c.txt" FileReadMode.string
      = Except.ok (ReadResult.text (translateNewlines [97, 13])) :=
  ⟨(claim9_amended_cat_roundtrip fsUtf8 [] "/f.txt").2.1 [104, 233]
      (fNode (utf8Encode [104, 233])).meta (by decide) (by decide) rfl,
   (claim9_amended_cat_roundtrip fsUtf8 [] "/f.txt").2.2 (utf8Encode [104, 233])
      (fNode (utf8Encode [104, 233])).meta rfl,
   (claim9_amended_cat_roundtrip fsCarriage [] "/c.txt").1 [97, 13]
      (fNode [97, 13]).meta (by decide) rfl⟩

theorem enum_eq_enumFrom {α : Type} (l : List α) : l.enum = List.enumFrom 0 l := rfl

/-- Claim C10 (grep is spec-modelled; the repository only declares it
abstract): `search(pattern, file, false, false)` on a single file
returns exactly one result per matching line — as many results as there
are matching lines — with strictly ascending 0-based indices (hence
ascending 1-based line numbers), each result rendered as
`<file path>:<line number>:<trimmed line text>` for the line actually
at that index, and the pattern matches every reported line. -/
theorem claim10_grep_single_file (pattern : String → Bool) (fs : Fs) (cwd : FsPath)
    (file : String) (content : List Nat) (m : Option StatInfo)
    (hl : lookupFs fs (resolveP cwd file)
      = some { kind := NodeKind.file content, meta := m }) :
    ∃ hits, hits = (linesOf (lossyDecode content)).enum.filter (fun pr => pattern pr.2) ∧
      grep pattern fs cwd file false = Except.ok (hits.map (fun pr =>
        fmtMatch (pathToString (resolveP cwd file)) (pr.1 + 1) pr.2)) ∧
      hits.length = ((linesOf (lossyDecode content)).filter pattern).length ∧
      List.Pairwise (· < ·) (hits.map Prod.fst) ∧
      ∀ pr ∈ hits, (linesOf (lossyDecode content))[pr.1]? = some pr.2
        ∧ pattern pr.2 = true := by
  have hex : existsB fs (resolveP cwd file) = true := by
    unfold existsB
    rw [hl]
    rfl
  have hdir : isDirB fs (resolveP cwd file) = false := by
    unfold isDirB
    rw [hl]
    rfl
  have hcont : contentOf fs (resolveP cwd file) = content := by
    unfold contentOf
    rw [hl]
  refine ⟨_, rfl, ?_, ?_, ?_, ?_⟩
  · simp [grep, hex, hdir, hcont, grepFile]
  · rw [enum_eq_enumFrom]
    exact length_filter_enumFrom pattern _ 0
  · exact pairwise_fst_filter_enum pattern _
  · intro pr hpr
    have h2 := List.mem_filter.mp hpr
    exact ⟨List.mem_enum_iff_getElem?.mp h2.1, by simpa using h2.2⟩

/-- Witness for claim C10: the file `/g.txt` holds the lines `ab`,
`cd`, `ab`; searching for exact line `ab` yields the two results with
line numbers 1 and 3. -/
theorem claim10_grep_single_file_witness :
    ∃ hits, hits = (linesOf (lossyDecode [97, 98, 10, 99, 100, 10, 97, 98, 10])).enum.filter
        (fun pr => (fun l => l == "ab") pr.2) ∧
      grep (fun l => l == "ab") fsGrep [] "/g.txt" false = Except.ok (hits.map (fun pr =>
        fmtMatch (pathToString (resolveP [] "/g.txt")) (pr.1 + 1) pr.2)) ∧
      hits.length = ((linesOf (lossyDecode [97, 98, 10, 99, 100, 10, 97, 98, 10])).filter
        (fun l => l == "ab")).length ∧
      List.Pairwise (· < ·) (hits.map Prod.fst) ∧
      ∀ pr ∈ hits, (linesOf (lossyDecode [97, 98, 10, 99, 100, 10, 97, 98, 10]))[pr.1]?
        = some pr.2 ∧ (fun l => l == "ab") pr.2 = true :=
  claim10_grep_single_file (fun l => l == "ab") fsGrep [] "/g.txt"
    [97, 98, 10, 99, 100, 10, 97, 98, 10] (fNode [97, 98, 10, 99, 100, 10, 97, 98, 10]).meta rfl

theorem lookupFs_filter_ne (fs : Fs) (p q : FsPath) (h : q ≠ p) :
    lookupFs (fs.filter (fun e => !(e.1 == p))) q = lookupFs fs q := by
  induction fs with
  | nil => rfl
  | cons e fs ih =>
    rw [List.filter_cons]
    by_cases hep : e.1 = p
    · have hb : (!(e.1 == p)) = false := by simp [hep]
      rw [hb]
      simp only [Bool.false_eq_true, if_false]
      rw [lookupFs_cons, if_neg (fun hh => h (hep.symm.trans hh).symm), ih]
    · have hb : (!(e.1 == p)) = true := by simp [hep]
      rw [hb, if_pos rfl, lookupFs_cons, lookupFs_cons]
      by_cases heq : e.1 = q
      · rw [if_pos heq, if_pos heq]
      · rw [if_neg heq, if_neg heq, ih]

theorem lookupFs_setEntry_ne (fs : Fs) (p : FsPath) (n : Node) (q : FsPath) (h : q ≠ p) :
    lookupFs (setEntry fs p n) q = lookupFs fs q := by
  unfold setEntry
  rw [lookupFs_append, lookupFs_filter_ne fs p q h, lookupFs_cons, if_neg (fun hh => h hh.symm)]
  cases lookupFs fs q <;> rfl

theorem existsB_setEntry_mono (fs : Fs) (p : FsPath) (n : Node) (q : FsPath)
    (h : existsB fs q = true) : existsB (setEntry fs p n) q = true := by
  by_cases hq : q = p
  · subst hq
    unfold existsB setEntry
    rw [lookupFs_append, lookupFs_cons]
    simp
  · unfold existsB
    rw [lookupFs_setEntry_ne fs p n q hq]
    exact h

theorem isDirB_setEntry_ne (fs : Fs) (p : FsPath) (n : Node) (q : FsPath) (h : q ≠ p) :
    isDirB (setEntry fs p n) q = isDirB fs q := by
  unfold isDirB
  rw [lookupFs_setEntry_ne fs p n q h]

theorem lookupFs_subtree_mapped (fs : Fs) (s d : FsPath) (hd : existsB fs d = false) :
    lookupFs ((subtreeEntries fs s).map (fun e => (d ++ e.1.drop s.length, e.2))) d
      = lookupFs fs s := by
  induction fs with
  | nil => rfl
  | cons e fs ih =>
    have hcons := (existsB_false_iff (e :: fs) d).mp hd
    have hed : e.1 ≠ d := hcons e (List.mem_cons_self e fs)
    have hfs : existsB fs d = false :=
      (existsB_false_iff fs d).mpr (fun x hx => hcons x (List.mem_cons_of_mem e hx))
    rw [subtreeEntries, List.filter_cons]
    by_cases hsp : s.isPrefixOf e.1 = true
    · rw [hsp, if_pos rfl, List.map_cons]
      by_cases hes : e.1 = s
      · subst hes
        rw [lookupFs_cons, lookupFs_cons]
        simp [List.drop_length]
      · have hplen : s.length < e.1.length := by
          have hpre := List.isPrefixOf_iff_prefix.mp hsp
          rcases Nat.lt_or_ge s.length e.1.length with hlt | hge
          · exact hlt
          · exact absurd (hpre.eq_of_length (Nat.le_antisymm hpre.length_le hge)).symm hes
        have hkey : d ++ e.1.drop s.length ≠ d := by
          intro hk
          have hk2 : (d ++ e.1.drop s.length).length = d.length := by rw [hk]
          simp [List.length_drop] at hk2
          omega
        rw [lookupFs_cons, lookupFs_cons, if_neg hkey, if_neg hes]
        exact ih hfs
    · have hes : e.1 ≠ s := by
        intro hh
        subst hh
        rw [List.isPrefixOf_iff_prefix.mpr (List.prefix_refl e.1)] at hsp
        exact hsp rfl
      have hb : s.isPrefixOf e.1 = false := by
        cases hh : s.isPrefixOf e.1
        · rfl
        · exact absurd hh hsp
      rw [hb]
      simp only [Bool.false_eq_true, if_false]
      rw [lookupFs_cons, if_neg hes]
      exact ih hfs

theorem lookupFs_copytree_target (fs : Fs) (s d : FsPath) (hd : existsB fs d = false) :
    lookupFs (fs ++ (subtreeEntries fs s).map (fun e => (d ++ e.1.drop s.length, e.2))) d
      = lookupFs fs s := by
  have hnone : lookupFs fs d = none := by
    unfold existsB at hd
    cases hl : lookupFs fs d
    · rfl
    · rw [hl] at hd
      exact absurd hd (by simp)
  rw [lookupFs_append, hnone, lookupFs_subtree_mapped fs s d hd]
  rfl

theorem copy2_result (fs : Fs) (s d : FsPath) :
    (∃ e, copy2 fs s d = Except.error e) ∨
    (∃ x n, copy2 fs s d = Except.ok (setEntry fs (d ++ x) n)) := by
  unfold copy2
  by_cases h1 : isDirB fs d = true
  · rw [if_pos h1]
    by_cases h2 : isDirB fs (d ++ [(s.getLast?).getD ""]) = true
    · rw [if_pos h2]
      exact Or.inl ⟨_, rfl⟩
    · rw [if_neg h2]
      cases hl : lookupFs fs s
      · exact Or.inl ⟨_, rfl⟩
      · exact Or.inr ⟨[(s.getLast?).getD ""], _, rfl⟩
  · rw [if_neg h1, if_neg h1]
    cases hl : lookupFs fs s with
    | none => exact Or.inl ⟨_, rfl⟩
    | some nn =>
      refine Or.inr ⟨[], nn, ?_⟩
      rw [List.append_nil]

theorem copyChildren_clash (srcP finalDst : FsPath) (c : String) :
    ∀ (names : List String) (fs : Fs), c ∈ names →
    isDirB fs (srcP ++ [c]) = true →
    existsB fs (finalDst ++ [c]) = true →
    finalDst.isPrefixOf (srcP ++ [c]) = false →
    ∃ e, copyChildren fs srcP finalDst names = Except.error e := by
  intro names
  induction names with
  | nil =>
    intro fs hcmem _ _ _
    exact absurd hcmem (List.not_mem_nil c)
  | cons n rest ih =>
    intro fs hcmem hcdir hcex hdisj
    by_cases hhead : n = c
    · subst hhead
      exact ⟨Err.alreadyExists, by simp [copyChildren, hcdir, copytree, hcex]⟩
    · have hcrest : c ∈ rest := by
        rcases List.mem_cons.mp hcmem with h | h
        · exact absurd h.symm hhead
        · exact h
      by_cases hnd : isDirB fs (srcP ++ [n]) = true
      · by_cases hnex : existsB fs (finalDst ++ [n]) = true
        · exact ⟨Err.alreadyExists, by simp [copyChildren, hnd, copytree, hnex]⟩
        · have hnex2 : existsB fs (finalDst ++ [n]) = false := by
            cases hh : existsB fs (finalDst ++ [n])
            · rfl
            · exact absurd hh hnex
          have hstep : copyChildren fs srcP finalDst (n :: rest)
              = copyChildren (fs ++ (subtreeEntries fs (srcP ++ [n])).map
                  (fun e => (finalDst ++ [n] ++ e.1.drop (srcP ++ [n]).length, e.2)))
                srcP finalDst rest := by
            simp [copyChildren, hnd, copytree, hnex2]
          obtain ⟨e, he⟩ := ih _ hcrest (isDirB_append_left _ _ _ hcdir)
            (existsB_append_left _ _ _ hcex) hdisj
          rw [hstep]
          exact ⟨e, he⟩
      · have hnd2 : isDirB fs (srcP ++ [n]) = false := by
          cases hh : isDirB fs (srcP ++ [n])
          · rfl
          · exact absurd hh hnd
        rcases copy2_result fs (srcP ++ [n]) (finalDst ++ [n]) with ⟨e, he⟩ | ⟨x, nn, hok⟩
        · exact ⟨e, by simp [copyChildren, hnd2, he]⟩
        · have hne : srcP ++ [c] ≠ finalDst ++ [n] ++ x := by
            intro hh
            have : finalDst ++ ([n] ++ x) = srcP ++ [c] := by
              rw [← List.append_assoc]
              exact hh.symm
            exact append_neq_of_isPrefixOf_false hdisj ([n] ++ x) this
          have hstep : copyChildren fs srcP finalDst (n :: rest)
              = copyChildren (setEntry fs (finalDst ++ [n] ++ x) nn) srcP finalDst rest := by
            simp [copyChildren, hnd2, hok]
          obtain ⟨e, he⟩ := ih (setEntry fs (finalDst ++ [n] ++ x) nn) hcrest
            (by rw [isDirB_setEntry_ne _ _ _ _ hne]; exact hcdir)
            (existsB_setEntry_mono _ _ _ _ hcex) hdisj
          rw [hstep]
          exact ⟨e, he⟩

/-- Counterexample for claim C4: in `fsCopyClash` the source `/s` and
the destination side carry same-named subdirectories (`/s/c` with
`/d/c`, and with `/d/s/c` under the copy target `/d/s`), yet the
recursive copy fails with the already-exists error instead of merging —
`shutil.copytree` refuses an existing target, so no recursion/merge into
existing same-named subdirectories happens. -/
theorem claim4_merge_counterexample :
    cp fsCopyClash [] "/s" "/d" true = Except.error Err.alreadyExists ∧
    isDirB fsCopyClash ["s", "c"] = true ∧
    isDirB fsCopyClash ["d", "c"] = true ∧
    isDirB fsCopyClash ["d", "s", "c"] = true :=
  ⟨rfl, rfl, rfl, rfl⟩

/-- Claim C4 amended: with a directory source, `recursive = true` and a
destination that exists and is a directory, the copy targets
`dst / src.name`.  (1) If that target does not exist, the entire source
tree is copied to it wholesale (`copytree`), and the source root's node
lands at the target.  (2) If it exists as a directory, the copy runs
the one-level per-child loop (`copyChildren`): each top-level child is
copied wholesale — `copytree` for directories, `copy2` for files (which
drops into an existing directory target under the child's name) — with
no recursion into existing same-named subdirectories.  (3) In that
loop, whenever any top-level child of the source is a directory whose
same-named counterpart already exists under `dst / src.name`, the copy
fails instead of merging. -/
theorem claim4_amended_one_level_copy (fs : Fs) (cwd : FsPath) (src dst : String)
    (hsrc : isDirB fs (resolveP cwd src) = true)
    (hdst : isDirB fs (resolveP cwd dst) = true) :
    (existsB fs (resolveP cwd dst ++ [baseName src]) = false →
      cp fs cwd src dst true
        = Except.ok (fs ++ (subtreeEntries fs (resolveP cwd src)).map
            (fun e => (resolveP cwd dst ++ [baseName src]
              ++ e.1.drop (resolveP cwd src).length, e.2))) ∧
      lookupFs (fs ++ (subtreeEntries fs (resolveP cwd src)).map
            (fun e => (resolveP cwd dst ++ [baseName src]
              ++ e.1.drop (resolveP cwd src).length, e.2)))
          (resolveP cwd dst ++ [baseName src])
        = lookupFs fs (resolveP cwd src)) ∧
    (isDirB fs (resolveP cwd dst ++ [baseName src]) = true →
      cp fs cwd src dst true
        = copyChildren fs (resolveP cwd src) (resolveP cwd dst ++ [baseName src])
            (childNames fs (resolveP cwd src))) ∧
    (∀ c ∈ childNames fs (resolveP cwd src),
      isDirB fs (resolveP cwd dst ++ [baseName src]) = true →
      isDirB fs (resolveP cwd src ++ [c]) = true →
      existsB fs (resolveP cwd dst ++ [baseName src] ++ [c]) = true →
      (resolveP cwd dst ++ [baseName src]).isPrefixOf (resolveP cwd src ++ [c]) = false →
      ∃ e, cp fs cwd src dst true = Except.error e) := by
  have hex : existsB fs (resolveP cwd src) = true := existsB_of_isDirB _ _ hsrc
  have hexd : existsB fs (resolveP cwd dst) = true := existsB_of_isDirB _ _ hdst
  refine ⟨?_, ?_, ?_⟩
  · intro hfex
    constructor
    · simp [cp, hex, hsrc, hexd, hdst, hfex, copytree]
    · exact lookupFs_copytree_target fs (resolveP cwd src)
        (resolveP cwd dst ++ [baseName src]) hfex
  · intro hfin
    have hexf : existsB fs (resolveP cwd dst ++ [baseName src]) = true :=
      existsB_of_isDirB _ _ hfin
    simp [cp, hex, hsrc, hexd, hdst, hexf, hfin]
  · intro c hcmem hfin hcdir htgt hdisj
    have hexf : existsB fs (resolveP cwd dst ++ [baseName src]) = true :=
      existsB_of_isDirB _ _ hfin
    have hred : cp fs cwd src dst true
        = copyChildren fs (resolveP cwd src) (resolveP cwd dst ++ [baseName src])
            (childNames fs (resolveP cwd src)) := by
      simp [cp, hex, hsrc, hexd, hdst, hexf, hfin]
    obtain ⟨e, he⟩ := copyChildren_clash (resolveP cwd src)
      (resolveP cwd dst ++ [baseName src]) c (childNames fs (resolveP cwd src)) fs
      hcmem hcdir htgt hdisj
    rw [hred]
    exact ⟨e, he⟩

/-- Witness for the amended claim C4 at the concrete clash tree: `/s`'s
child directory `c` already exists under the copy target `/d/s`, so the
recursive copy fails rather than merging. -/
theorem claim4_amended_one_level_copy_witness :
    ∃ e, cp fsCopyClash [] "/s" "/d" true = Except.error e :=
  (claim4_amended_one_level_copy fsCopyClash [] "/s" "/d" rfl rfl).2.2 "c"
    (by decide) rfl rfl rfl rfl

/-- Counterexample for claim C7: moving the file `/a` into the directory
`/d`, which already contains a directory named `a`.  The claim places
the moved item at `dst / src.name` (that is, `/d/a`); but afterwards
`/d/a` is still the pre-existing directory and the file sits one level
deeper at `/d/a/a` — `shutil.move` descends into an existing directory
target. -/
theorem claim7_move_into_existing_dir_counterexample :
    (mv fsMoveClash [] "/a" "/d").map
      (fun f => (lookupFs f ["d", "a"], lookupFs f ["d", "a", "a"], lookupFs f ["a"]))
      = Except.ok (some dNode, some (fNode [1]), none) := rfl

/-- Claim C7 amended: `mv` signals `NotFound` when the source is absent.
When the destination is an existing directory and `dst / src.name` does
not yet exist (and the target does not lie inside the source), the
moved item lands exactly at `dst / src.name` and the source is gone.
When the destination does not exist at all, `dst` is the literal
target: its missing parent directories are created as directories, the
item lands at `dst`, and the source is gone.  When `dst / src.name` is
itself an existing directory the item instead lands inside it (see the
counterexample). -/
theorem claim7_amended_move (fs : Fs) (cwd : FsPath) (src dst : String) :
    (existsB fs (resolveP cwd src) = false →
      mv fs cwd src dst = Except.error Err.notFound) ∧
    (∀ srcP dstP finalDst, srcP = resolveP cwd src → dstP = resolveP cwd dst →
      finalDst = dstP ++ [baseName src] →
      existsB fs srcP = true → isDirB fs dstP = true →
      existsB fs finalDst = false →
      (∀ q ∈ prefixChain dstP, isDirB fs q = true) →
      finalDst.isPrefixOf srcP = false →
      mv fs cwd src dst = Except.ok (moveSubtree fs srcP finalDst) ∧
      lookupFs (moveSubtree fs srcP finalDst) finalDst = lookupFs fs srcP ∧
      lookupFs (moveSubtree fs srcP finalDst) srcP = none) ∧
    (∀ srcP dstP, srcP = resolveP cwd src → dstP = resolveP cwd dst →
      existsB fs srcP = true → existsB fs dstP = false → dstP ≠ [] →
      (∀ q ∈ prefixChain (parentP dstP), existsB fs q = false ∨ isDirB fs q = true) →
      dstP.isPrefixOf srcP = false → srcP.isPrefixOf dstP = false →
      ∃ gs, mkdirParents fs (parentP dstP) = Except.ok (fs ++ gs) ∧
        mv fs cwd src dst = Except.ok (moveSubtree (fs ++ gs) srcP dstP) ∧
        lookupFs (moveSubtree (fs ++ gs) srcP dstP) dstP = lookupFs fs srcP ∧
        lookupFs (moveSubtree (fs ++ gs) srcP dstP) srcP = none ∧
        ∀ q ∈ prefixChain (parentP dstP), isDirB (moveSubtree (fs ++ gs) srcP dstP) q = true) := by
  refine ⟨?_, ?_, ?_⟩
  · intro h
    simp [mv, h]
  · intro srcP dstP finalDst hs hdq hf hex hdir hfex hpar hnp
    subst hs hdq hf
    have hexd : existsB fs (resolveP cwd dst) = true := existsB_of_isDirB _ _ hdir
    have hmk : mkdirParents fs (resolveP cwd dst) = Except.ok fs :=
      mkdirParents_eq_of_allDirs fs _ hpar
    have hfdir : isDirB fs (resolveP cwd dst ++ [baseName src]) = false :=
      isDirB_false_of_not_exists fs _ hfex
    refine ⟨?_, ?_, ?_⟩
    · simp only [mv, hex, Bool.not_true, Bool.false_eq_true, if_false, hexd, hdir,
        Bool.and_self, if_true, parentP_concat, hmk]
      simp only [shutilMove, hfdir, Bool.false_eq_true, if_false, renameFs, hfex]
    · exact lookupFs_moveSubtree_target fs _ _ hfex
    · exact lookupFs_moveSubtree_src fs _ _ hnp
  · intro srcP dstP hs hdq hex hdex hdne hpar hnp hns
    subst hs hdq
    have hall : (prefixChain (parentP (resolveP cwd dst))).all
        (fun q => !existsB fs q || isDirB fs q) = true := by
      rw [List.all_eq_true]
      intro q hq
      rcases hpar q hq with h | h
      · rw [h]
        rfl
      · rw [h]
        simp
    obtain ⟨gs, hfold, hkeys, hnew⟩ :=
      foldl_mkdir_creates (prefixChain (parentP (resolveP cwd dst))) fs
    have hmk : mkdirParents fs (parentP (resolveP cwd dst)) = Except.ok (fs ++ gs) := by
      unfold mkdirParents
      rw [if_pos hall, hfold]
    have hgkeys : ∀ e ∈ gs, e.1 ≠ resolveP cwd dst := by
      intro e he heq
      have hlen := (prefixChain_pre ((hkeys e he).1)).length_le
      simp only [parentP] at hlen
      rw [List.length_dropLast] at hlen
      have hpos : 0 < (resolveP cwd dst).length := List.length_pos.mpr hdne
      rw [heq] at hlen
      omega
    have hdex2 : existsB (fs ++ gs) (resolveP cwd dst) = false := by
      rw [existsB_false_iff]
      intro e he
      rcases List.mem_append.mp he with h1 | h2
      · exact (existsB_false_iff fs _).mp hdex e h1
      · exact hgkeys e h2
    have hddir2 : isDirB (fs ++ gs) (resolveP cwd dst) = false :=
      isDirB_false_of_not_exists _ _ hdex2
    have hddir : isDirB fs (resolveP cwd dst) = false :=
      isDirB_false_of_not_exists _ _ hdex
    obtain ⟨n, hn⟩ : ∃ n, lookupFs fs (resolveP cwd src) = some n := by
      unfold existsB at hex
      cases hl : lookupFs fs (resolveP cwd src)
      · rw [hl] at hex
        exact absurd hex (by simp)
      · exact ⟨_, rfl⟩
    have hsrc2 : lookupFs (fs ++ gs) (resolveP cwd src) = some n :=
      lookupFs_append_left fs gs _ n hn
    refine ⟨gs, hmk, ?_, ?_, ?_, ?_⟩
    · simp only [mv, hex, Bool.not_true, Bool.false_eq_true, if_false, hdex,
        Bool.false_and, if_false, hmk]
      simp only [shutilMove, hddir2, Bool.false_eq_true, if_false, renameFs, hdex2]
    · rw [lookupFs_moveSubtree_target (fs ++ gs) _ _ hdex2, hsrc2, hn]
    · exact lookupFs_moveSubtree_src (fs ++ gs) _ _ hnp
    · intro q hq
      have hqpre : q <+: parentP (resolveP cwd dst) := prefixChain_pre hq
      have hqd : (resolveP cwd dst).isPrefixOf q = false := by
        cases hb : (resolveP cwd dst).isPrefixOf q
        · rfl
        · have hlen1 := (List.isPrefixOf_iff_prefix.mp hb).length_le
          have hlen2 := hqpre.length_le
          simp only [parentP] at hlen2
          rw [List.length_dropLast] at hlen2
          have hpos : 0 < (resolveP cwd dst).length := List.length_pos.mpr hdne
          omega
      have hqdall : q <+: resolveP cwd dst :=
        hqpre.trans (List.dropLast_prefix _)
      have hqs : (resolveP cwd src).isPrefixOf q = false := by
        cases hb : (resolveP cwd src).isPrefixOf q
        · rfl
        · have : (resolveP cwd src).isPrefixOf (resolveP cwd dst) = true :=
            List.isPrefixOf_iff_prefix.mpr
              ((List.isPrefixOf_iff_prefix.mp hb).trans hqdall)
          rw [this] at hns
          exact absurd hns (by simp)
      have huntouched : lookupFs (moveSubtree (fs ++ gs) (resolveP cwd src)
          (resolveP cwd dst)) q = lookupFs (fs ++ gs) q :=
        lookupFs_moveSubtree_untouched (fs ++ gs) _ _ q hqs hqd
      have hdirq : isDirB (fs ++ gs) q = true := by
        rcases hpar q hq with h | h
        · have := hnew q hq h
          exact isDirB_of_lookup (fs ++ gs) q newDirNode this rfl
        · exact isDirB_append_left fs gs q h
      unfold isDirB at hdirq ⊢
      rw [huntouched]
      exact hdirq

/-- Witness for the amended claim C7: moving `/tmp/a/x.txt` into the
existing directory `/tmp` lands the file at `/tmp/x.txt` and removes it
from `/tmp/a` (destination-directory case), and the not-found case
fires for an absent source. -/
theorem claim7_amended_move_witness :
    (mv sampleFs [] "/missing" "/tmp" = Except.error Err.notFound) ∧
    (mv sampleFs [] "/tmp/a/x.txt" "/tmp"
        = Except.ok (moveSubtree sampleFs ["tmp", "a", "x.txt"] ["tmp", "x.txt"]) ∧
      lookupFs (moveSubtree sampleFs ["tmp", "a", "x.txt"] ["tmp", "x.txt"]) ["tmp", "x.txt"]
        = lookupFs sampleFs ["tmp", "a", "x.txt"] ∧
      lookupFs (moveSubtree sampleFs ["tmp", "a", "x.txt"] ["tmp", "x.txt"])
        ["tmp", "a", "x.txt"] = none) :=
  ⟨(claim7_amended_move sampleFs [] "/missing" "/tmp").1 rfl,
   (claim7_amended_move sampleFs [] "/tmp/a/x.txt" "/tmp").2.1
     ["tmp", "a", "x.txt"] ["tmp"] ["tmp", "x.txt"] rfl rfl rfl rfl rfl rfl
     (by decide) rfl⟩

/-- Witness for claim C1 at a concrete method name: `zip` is promised by
the interface but absent from the implementation class. -/
theorem claim1_construction_always_raises_TypeError_witness :
    "zip" ∈ abstractMethodsOfBase ∧ "zip" ∉ methodsOfWindowsConsoleService :=
  claim1_construction_always_raises_TypeError.2.2 "zip" (by decide)
